import Mathlib

/-!
Formal model of the bitrate-analysis core of video_bitrate_viewer.py.

Python floats are modelled as exact rationals: timestamps, durations,
window sizes, view fractions and bitrates are terms of type ℚ, byte sizes
and core indices are naturals.  Fallible or side-effecting parts
(progress reporting, process pools, GUI redraws, affinity system calls)
are dropped or made explicit as parameters; the numeric content of every
modelled function is translated line by line from the source.
-/

/-- A probed packet as consumed by calculate_bitrate_parallel
(video_bitrate_viewer.py lines 1342-1349): an optional presentation
timestamp (none models a packet whose pts_time/dts_time is missing or
is the string N/A) and a byte size. -/
structure Packet where
  pts : Option ℚ
  size : ℕ
deriving DecidableEq

/-- Lines 1342-1349: build frame_data, keeping a (timestamp, size) pair for
every packet with a usable timestamp and skipping the rest. -/
def prepareFrameData (packets : List Packet) : List (ℚ × ℕ) :=
  packets.filterMap (fun p => p.pts.map (fun t => (t, p.size)))

/-- Stable sort ascending by the first pair component, modelling the Python
idiom list.sort(key=lambda x: x[0]) used at lines 1354, 1165, 1194 and 1401
(Python list.sort is stable, as is List.mergeSort). -/
def sortByFst {α : Type} (l : List (ℚ × α)) : List (ℚ × α) :=
  l.mergeSort (fun a b => decide (a.1 ≤ b.1))

/-- Lines 1408-1412 (and identically lines 88-92): the windowed bitrate at
time point t, namely sum(size * 8 for pts, size in frame_data if
t <= pts < t + window_size) / window_size / 1000. -/
def windowBitrate (frameData : List (ℚ × ℕ)) (windowSize t : ℚ) : ℚ :=
  ((frameData.filter (fun p => decide (t ≤ p.1) && decide (p.1 < t + windowSize))).map
    (fun p => (p.2 : ℚ) * 8)).sum / windowSize / 1000

/-- Lines 1404-1420, _calculate_bitrate_single: one sample
(t + window_size / 2, bitrate_kbps) per time point, in order.  The
progress reporting every 100 points has no effect on the returned list. -/
def calculate_bitrate_single (frameData : List (ℚ × ℕ)) (timePoints : List ℚ)
    (windowSize : ℚ) : List (ℚ × ℚ) :=
  timePoints.map (fun t => (t + windowSize / 2, windowBitrate frameData windowSize t))

/-- Lines 80-98, _calculate_chunk: the per-worker computation over one chunk
of time points.  Its arithmetic is identical to _calculate_bitrate_single;
the affinity re-application every 200 points has no effect on the returned
list. -/
def calculate_chunk (frameData : List (ℚ × ℕ)) (timePoints : List ℚ)
    (windowSize : ℚ) : List (ℚ × ℚ) :=
  timePoints.map (fun t => (t + windowSize / 2, windowBitrate frameData windowSize t))

/-- Lines 1360-1364: the loop t = 0.0; while t <= D: append t; t += step,
started at an arbitrary t.  The source loop terminates only when the step
is positive (guaranteed by the precondition window_size > 0), so the
recursion carries that hypothesis for the termination measure. -/
def genTimePointsAux (step D : ℚ) (hstep : 0 < step) (t : ℚ) : List ℚ :=
  if _h : t ≤ D then t :: genTimePointsAux step D hstep (t + step) else []
termination_by (⌊(D - t) / step⌋ + 1).toNat
decreasing_by
  have h1 : (D - (t + step)) / step = (D - t) / step - 1 := by
    rw [show D - (t + step) = D - t - step by ring, sub_div, div_self (ne_of_gt hstep)]
  have h2 : (0 : ℚ) ≤ (D - t) / step := div_nonneg (by linarith) (le_of_lt hstep)
  have h3 : ⌊(D - (t + step)) / step⌋ = ⌊(D - t) / step⌋ - 1 := by
    rw [h1]; exact Int.floor_sub_one _
  have h4 : 0 ≤ ⌊(D - t) / step⌋ := Int.floor_nonneg.mpr h2
  omega

/-- Lines 1359-1364: the generated time points 0, step, 2·step, … kept
while the point is ≤ D.  For step ≤ 0 — excluded by the stated
precondition window_size > 0, and a case in which the source loop would
not terminate — the model returns the empty list. -/
def genTimePoints (step D : ℚ) : List ℚ :=
  if h : 0 < step then genTimePointsAux step D h 0 else []

/-- Line 1356: max_frame_time, the timestamp of the last entry of the
sorted frame_data (the source reads frame_data[-1][0] and uses 0 when the
list is empty, a case already excluded at line 1351). -/
def lastFrameTime (frameData : List (ℚ × ℕ)) : ℚ :=
  ((frameData.getLast?).map Prod.fst).getD 0

/-- Lines 1342-1354 combined: the sorted, filtered frame data of a request. -/
def engineFrameData (packets : List Packet) : List (ℚ × ℕ) :=
  sortByFst (prepareFrameData packets)

/-- Line 1357: actual_duration = max(duration, max_frame_time). -/
def engineActualDuration (packets : List Packet) (duration : ℚ) : ℚ :=
  max duration (lastFrameTime (engineFrameData packets))

/-- Lines 1356-1364 combined: the time points generated for a request,
with step = window_size / 2 (line 1359). -/
def engineTimePoints (packets : List Packet) (duration windowSize : ℚ) : List ℚ :=
  genTimePoints (windowSize / 2) (engineActualDuration packets duration)

/-- Lines 1372-1375: chunks = [time_points[i:i+chunk_size] for i in
range(0, len(time_points), chunk_size)]; the chunk size is always positive
there (it is max(1, ...)), and the recursion carries that hypothesis. -/
def chunkList {α : Type} (cs : ℕ) (hcs : 0 < cs) : List α → List (List α)
  | [] => []
  | x :: xs => (x :: xs).take cs :: chunkList cs hcs ((x :: xs).drop cs)
termination_by l => l.length
decreasing_by
  simp only [List.length_drop, List.length_cons]
  omega

/-- Lines 1341-1370 restricted to the serial path: filter and sort the
packets, compute the effective duration and the time points, and run the
single-threaded computation over all of them.  This is exactly what
calculate_bitrate_parallel does when the chunked path is not taken or when
a worker fails. -/
def calculate_bitrate_serial (packets : List Packet) (duration windowSize : ℚ) :
    List (ℚ × ℚ) :=
  if prepareFrameData packets = [] then []
  else
    calculate_bitrate_single (engineFrameData packets)
      (engineTimePoints packets duration windowSize) windowSize

/-- Lines 1341-1402, calculate_bitrate_parallel with every worker
succeeding: empty frame data short-circuits to []; fewer than 50 time
points or a single worker run serially; otherwise the time points are
split into contiguous chunks of size max(1, len // num_workers), each
chunk is computed by _calculate_chunk over the full frame data, the chunk
results are concatenated in submission order and re-sorted by time.
Progress reporting and the process pool itself are dropped. -/
def calculate_bitrate_parallel (packets : List Packet) (duration windowSize : ℚ)
    (numWorkers : ℕ) : List (ℚ × ℚ) :=
  if prepareFrameData packets = [] then []
  else
    let frameData := engineFrameData packets
    let timePoints := engineTimePoints packets duration windowSize
    if timePoints.length < 50 ∨ numWorkers ≤ 1 then
      calculate_bitrate_single frameData timePoints windowSize
    else
      let chunkSize := max 1 (timePoints.length / numWorkers)
      let chunks := chunkList chunkSize
        (Nat.lt_of_lt_of_le Nat.zero_lt_one (le_max_left 1 (timePoints.length / numWorkers)))
        timePoints
      sortByFst ((chunks.map (fun c => calculate_chunk frameData c windowSize)).flatten)

/-- Lines 1382-1399 with worker failures made explicit: failures i = true
means the worker owning chunk i terminates abnormally, so the
corresponding future.result() raises inside the try block; the except
clause then discards every partial result and recomputes serially over
the full time point list (line 1399).  When no chunk fails the executor
path returns the concatenated, re-sorted chunk results. -/
def calculate_bitrate_parallel_oracle (failures : ℕ → Bool) (packets : List Packet)
    (duration windowSize : ℚ) (numWorkers : ℕ) : List (ℚ × ℚ) :=
  if prepareFrameData packets = [] then []
  else
    let frameData := engineFrameData packets
    let timePoints := engineTimePoints packets duration windowSize
    if timePoints.length < 50 ∨ numWorkers ≤ 1 then
      calculate_bitrate_single frameData timePoints windowSize
    else
      let chunkSize := max 1 (timePoints.length / numWorkers)
      let chunks := chunkList chunkSize
        (Nat.lt_of_lt_of_le Nat.zero_lt_one (le_max_left 1 (timePoints.length / numWorkers)))
        timePoints
      if (List.range chunks.length).any failures then
        calculate_bitrate_single frameData timePoints windowSize
      else
        sortByFst ((chunks.map (fun c => calculate_chunk frameData c windowSize)).flatten)

/-- Python bisect.bisect_left on the monotonic time index: the leftmost
insertion point for x, i.e. the index of the first element ≥ x, or the
length when every element is < x.  On sorted input — the only way the
source uses it, self.time_index being monotonic by construction — this
linear characterisation agrees with the library binary search. -/
def bisect_left (l : List ℚ) (x : ℚ) : ℕ :=
  match l with
  | [] => 0
  | y :: ys => if y < x then bisect_left ys x + 1 else 0

/-- Python bisect.bisect_right on the monotonic time index: the rightmost
insertion point for x, i.e. the index of the first element > x, or the
length when every element is ≤ x. -/
def bisect_right (l : List ℚ) (x : ℚ) : ℕ :=
  match l with
  | [] => 0
  | y :: ys => if y ≤ x then bisect_right ys x + 1 else 0

/-- Lines 1167-1177, the range-query part of get_visible_data: empty data
yields []; otherwise slice the data between max(0, bisect_left - 1) and
min(len, bisect_right + 1).  Python's max(0, i - 1) on a non-negative
integer i equals truncated subtraction on ℕ, and the slice
data[a:b] equals dropping a from the first b elements. -/
def get_visible_range (data : List (ℚ × ℚ)) (startTime endTime : ℚ) :
    List (ℚ × ℚ) :=
  if data = [] then []
  else
    let timeIndex := data.map Prod.fst
    let startIdx := bisect_left timeIndex startTime - 1
    let endIdx := min data.length (bisect_right timeIndex endTime + 1)
    (data.take endIdx).drop startIdx

/-- Python max(bucket, key=lambda x: x[1]): the first element whose second
component is maximal (max replaces the current best only on a strictly
greater key). -/
def maxBySnd : List (ℚ × ℚ) → Option (ℚ × ℚ)
  | [] => none
  | x :: xs => some (xs.foldl (fun acc y => if acc.2 < y.2 then y else acc) x)

/-- Lines 1179-1195 (and identically lines 1150-1165 with budget 400): the
peak-preserving bucket decimation.  A slice not longer than the budget is
returned unchanged; otherwise the first element, the maximum of each
interior bucket [int(i*step), int((i+1)*step)) for i in
range(1, budget - 1) with step = len/budget (empty buckets skipped), and
the last element are collected and re-sorted by time.  The source only
invokes this with budget ≥ 2 (400 and a dynamic budget of at least 200);
the branch is unreachable for an empty slice since its length exceeds the
budget. -/
def decimate (slice : List (ℚ × ℚ)) (budget : ℕ) : List (ℚ × ℚ) :=
  if slice.length ≤ budget then slice
  else
    match slice with
    | [] => []
    | x :: rest =>
      let step : ℚ := ((x :: rest).length : ℚ) / (budget : ℚ)
      let core := (List.range' 1 (budget - 2)).filterMap (fun i : ℕ =>
        let bucketStart := (⌊(i : ℚ) * step⌋).toNat
        let bucketEnd := (⌊((i : ℚ) + 1) * step⌋).toNat
        maxBySnd (((x :: rest).take bucketEnd).drop bucketStart))
      sortByFst ((x :: core) ++ [(x :: rest).getLast (List.cons_ne_nil x rest)])

/-- Lines 1167-1195, get_visible_data: the binary-search range slice
followed by the dynamic-budget decimation. -/
def get_visible_data (data : List (ℚ × ℚ)) (startTime endTime : ℚ)
    (maxPoints : ℕ) : List (ℚ × ℚ) :=
  decimate (get_visible_range data startTime endTime) maxPoints

/-- Lines 1146-1165, prepare_thumbnail_data: the same decimation with the
fixed overview budget of 400 points applied to the whole series. -/
def prepare_thumbnail_data (data : List (ℚ × ℚ)) : List (ℚ × ℚ) :=
  decimate data 400

/-- Lines 1754-1774, zoom(factor): shrink or grow the visible range around
its midpoint, clamping the new range to [min_view_range, 1] and shifting
it back inside [0, 1].  self.min_view_range is 0.005 at line 434; it is
kept as a parameter here.  The Python division current_range / factor
raises for factor = 0, so the claims below assume factor ≠ 0. -/
def zoomOp (minViewRange viewStart viewEnd factor : ℚ) : ℚ × ℚ :=
  let center := (viewStart + viewEnd) / 2
  let currentRange := viewEnd - viewStart
  let newRange := max minViewRange (min 1 (currentRange / factor))
  let newStart := center - newRange / 2
  let newEnd := center + newRange / 2
  let ns1 := if newStart < 0 then 0 else newStart
  let ne1 := if newStart < 0 then newRange else newEnd
  let ns2 := if ne1 > 1 then 1 - newRange else ns1
  let ne2 := if ne1 > 1 then 1 else ne1
  (max 0 ns2, min 1 ne2)

/-- Lines 1792-1830, on_mouse_wheel: zoom by 1.3 (wheel up) or 0.77 (wheel
down) keeping the cursor-anchored point fixed.  The cursor determines a
center inside the current view (or its midpoint when the cursor is outside
the chart); the center is taken as a parameter since pixel mapping is
external. -/
def wheelZoomOp (minViewRange viewStart viewEnd center : ℚ) (wheelUp : Bool) :
    ℚ × ℚ :=
  let factor : ℚ := if wheelUp then 13/10 else 77/100
  let currentRange := viewEnd - viewStart
  let newRange := max minViewRange (min 1 (currentRange / factor))
  let leftRatio := if 0 < currentRange then (center - viewStart) / currentRange else 1/2
  let newStart := center - leftRatio * newRange
  let newEnd := newStart + newRange
  let ns1 := if newStart < 0 then 0 else newStart
  let ne1 := if newStart < 0 then newRange else newEnd
  let ns2 := if ne1 > 1 then 1 - newRange else ns1
  let ne2 := if ne1 > 1 then 1 else ne1
  (max 0 ns2, min 1 ne2)

/-- Lines 1896-1909, on_thumbnail_drag in move mode: translate the view
recorded at press time by d_ratio, shifting it back inside [0, 1] while
keeping its width. -/
def dragMoveOp (viewStart viewEnd dRatio : ℚ) : ℚ × ℚ :=
  let viewRange := viewEnd - viewStart
  let newStart := viewStart + dRatio
  let newEnd := viewEnd + dRatio
  let ns1 := if newStart < 0 then 0 else newStart
  let ne1 := if newStart < 0 then viewRange else newEnd
  let ns2 := if ne1 > 1 then 1 - viewRange else ns1
  let ne2 := if ne1 > 1 then 1 else ne1
  (ns2, ne2)

/-- Lines 1911-1914, on_thumbnail_drag on the left handle: move the left
edge, clamped to [0, view_end - min_view_range]. -/
def dragLeftOp (minViewRange viewStart viewEnd dRatio : ℚ) : ℚ × ℚ :=
  (max 0 (min (viewEnd - minViewRange) (viewStart + dRatio)), viewEnd)

/-- Lines 1916-1919, on_thumbnail_drag on the right handle: move the right
edge, clamped to [view_start + min_view_range, 1]. -/
def dragRightOp (minViewRange viewStart viewEnd dRatio : ℚ) : ℚ × ℚ :=
  (viewStart, max (viewStart + minViewRange) (min 1 (viewEnd + dRatio)))

/-- The viewport invariant stated by the spec data model: fractions inside
[0, 1], properly ordered, with visible width at least min_view_range. -/
def viewportInv (minViewRange viewStart viewEnd : ℚ) : Prop :=
  0 ≤ viewStart ∧ viewStart < viewEnd ∧ viewEnd ≤ 1 ∧
    minViewRange ≤ viewEnd - viewStart

/-- Line 303: sorted_freqs = sorted(freq_to_cores.keys()); the dict keys
are the distinct MaxMhz values of the cores. -/
def sortedFreqs (freqs : List ℕ) : List ℕ :=
  (freqs.dedup).mergeSort (fun a b => decide (a ≤ b))

/-- Line 306: e_core_freq = sorted_freqs[0], the lowest bucket frequency. -/
def eCoreFreq (freqs : List ℕ) : ℕ := (sortedFreqs freqs).headD 0

/-- Line 304: sorted_freqs[-1], the highest bucket frequency. -/
def maxCoreFreq (freqs : List ℕ) : ℕ := (sortedFreqs freqs).getLastD 0

/-- Lines 308-316 helper: OR together bit 1 << i for every listed index. -/
def maskOf (idxs : List ℕ) : ℕ := idxs.foldr (fun i acc => acc ||| 2 ^ i) 0

/-- Lines 307-310: the efficiency-core mask, bits of the cores whose MaxMhz
equals the lowest bucket frequency, restricted to indices below 64.
Core i has frequency freqs[i]. -/
def e_cores_mask (freqs : List ℕ) : ℕ :=
  maskOf ((List.range freqs.length).filter
    (fun i => decide (freqs.getD i 0 = eCoreFreq freqs) && decide (i < 64)))

/-- Lines 312-316: the performance-core mask, bits of the cores in every
other frequency bucket (i.e. whose MaxMhz differs from the lowest bucket
frequency), restricted to indices below 64.  The source ORs the buckets
one frequency at a time; the resulting mask is the same. -/
def p_cores_mask (freqs : List ℕ) : ℕ :=
  maskOf ((List.range freqs.length).filter
    (fun i => decide (freqs.getD i 0 ≠ eCoreFreq freqs) && decide (i < 64)))

/-- Lines 295-323, _detect_via_power_info reduced to its decision: given
the per-core MaxMhz readings, classify the CPU as hybrid — returning the
efficiency and performance masks — exactly when there are at least two
distinct frequency buckets and the lowest bucket frequency divided by the
highest is below 0.85; otherwise report no hybrid architecture. -/
def detect_via_power_info (freqs : List ℕ) : Option (ℕ × ℕ) :=
  if 2 ≤ freqs.dedup.length ∧
      (eCoreFreq freqs : ℚ) / (maxCoreFreq freqs : ℚ) < 85/100 then
    some (e_cores_mask freqs, p_cores_mask freqs)
  else none

/-- Python bin(mask).count the set bits, for masks built from bits below
64 (the source only ever sets such bits, guarded by core_idx < 64). -/
def popCount64 (n : ℕ) : ℕ := ((List.range 64).filter (fun i => n.testBit i)).length

/-- Line 190 specialised to the frequency-clustering fallback (the CpuSet
path having failed): supported = has_hybrid_arch and e_core_count > 0 and
p_core_count > 0, where the counts are the set bits of the two masks. -/
def power_info_supported (freqs : List ℕ) : Bool :=
  match detect_via_power_info freqs with
  | none => false
  | some (em, pm) => decide (0 < popCount64 em) && decide (0 < popCount64 pm)

/-- Stepping the loop variable by one step lowers the remaining iteration
count of the time-point loop by exactly one. -/
theorem floor_step_div_sub (step D t : ℚ) (h : 0 < step) :
    ⌊(D - (t + step)) / step⌋ = ⌊(D - t) / step⌋ - 1 := by
  have h1 : (D - (t + step)) / step = (D - t) / step - 1 := by
    rw [show D - (t + step) = D - t - step by ring, sub_div, div_self (ne_of_gt h)]
  rw [h1]; exact Int.floor_sub_one _

/-- Closed form of the while loop started at an arbitrary t: the points
t, t + step, … while ≤ D, as a mapped range. -/
theorem genTimePointsAux_closed_aux (step D : ℚ) (h : 0 < step) :
    ∀ (n : ℕ) (t : ℚ), (⌊(D - t) / step⌋ + 1).toNat ≤ n →
      genTimePointsAux step D h t =
        (List.range (if t ≤ D then (⌊(D - t) / step⌋).toNat + 1 else 0)).map
          (fun k : ℕ => t + (k : ℚ) * step) := by
  intro n
  induction n with
  | zero =>
    intro t hn
    have hnt : ¬ t ≤ D := by
      intro hle
      have h2 : (0 : ℚ) ≤ (D - t) / step := div_nonneg (by linarith) h.le
      have h3 := Int.floor_nonneg.mpr h2
      omega
    rw [genTimePointsAux, dif_neg hnt, if_neg hnt]
    simp
  | succ n ih =>
    intro t hn
    by_cases ht : t ≤ D
    · have hflo : 0 ≤ ⌊(D - t) / step⌋ :=
        Int.floor_nonneg.mpr (div_nonneg (by linarith) h.le)
      have hsub := floor_step_div_sub step D t h
      have hmeas : (⌊(D - (t + step)) / step⌋ + 1).toNat ≤ n := by omega
      rw [genTimePointsAux, dif_pos ht, ih (t + step) hmeas, if_pos ht]
      by_cases ht2 : t + step ≤ D
      · have h1le : 1 ≤ ⌊(D - t) / step⌋ := by
          have hq : (1 : ℚ) ≤ (D - t) / step := by
            rw [le_div_iff₀ h]
            linarith
          exact Int.le_floor.mpr (by exact_mod_cast hq)
        rw [if_pos ht2]
        have hm : (⌊(D - (t + step)) / step⌋).toNat + 1 = (⌊(D - t) / step⌋).toNat := by
          omega
        rw [hm, List.range_succ_eq_map, List.map_cons, List.map_map]
        simp only [Nat.cast_zero, zero_mul, add_zero]
        congr 1
        apply List.map_congr_left
        intro a _
        simp only [Function.comp_apply]
        push_cast
        ring
      · rw [if_neg ht2]
        have h0 : ⌊(D - t) / step⌋ = 0 := by
          rw [Int.floor_eq_zero_iff, Set.mem_Ico]
          exact ⟨div_nonneg (by linarith) h.le, (div_lt_one h).mpr (by linarith)⟩
        rw [h0]
        rw [show (1 : ℕ) = 0 + 1 from rfl, List.range_succ_eq_map]
        simp
    · rw [genTimePointsAux, dif_neg ht, if_neg ht]
      simp

/-- The generated time points are exactly 0, step, 2·step, …, ⌊D/step⌋·step
for a non-negative effective duration D, and none for a negative one. -/
theorem genTimePoints_closed (step D : ℚ) (h : 0 < step) :
    genTimePoints step D =
      (List.range (if 0 ≤ D then (⌊D / step⌋).toNat + 1 else 0)).map
        (fun k : ℕ => (k : ℚ) * step) := by
  rw [genTimePoints, dif_pos h,
    genTimePointsAux_closed_aux step D h ((⌊(D - 0) / step⌋ + 1).toNat) 0 le_rfl]
  simp

/-- The generated time points are non-decreasing. -/
theorem genTimePoints_pairwise (step D : ℚ) (h : 0 < step) :
    (genTimePoints step D).Pairwise (· ≤ ·) := by
  rw [genTimePoints_closed step D h]
  refine List.Pairwise.map _ ?_ (List.pairwise_lt_range _)
  intro a b hab
  have hc : (a : ℚ) ≤ (b : ℚ) := by exact_mod_cast hab.le
  exact mul_le_mul_of_nonneg_right hc h.le

/-- Every generated time point is at most the effective duration. -/
theorem genTimePoints_le (step D : ℚ) (h : 0 < step) :
    ∀ t ∈ genTimePoints step D, t ≤ D := by
  rw [genTimePoints_closed step D h]
  intro t ht
  simp only [List.mem_map, List.mem_range] at ht
  obtain ⟨k, hk, rfl⟩ := ht
  by_cases hD : 0 ≤ D
  · rw [if_pos hD] at hk
    have h2 : 0 ≤ ⌊D / step⌋ := Int.floor_nonneg.mpr (div_nonneg hD h.le)
    have hkle : (k : ℤ) ≤ ⌊D / step⌋ := by omega
    have hq : (k : ℚ) ≤ D / step := by exact_mod_cast Int.le_floor.mp hkle
    calc (k : ℚ) * step ≤ D / step * step := mul_le_mul_of_nonneg_right hq h.le
    _ = D := div_mul_cancel₀ D (ne_of_gt h)
  · rw [if_neg hD] at hk
    simp at hk

/-- The chunks of a list, concatenated in order, give back the list. -/
theorem chunkList_flatten_aux {α : Type} (cs : ℕ) (hcs : 0 < cs) :
    ∀ (n : ℕ) (l : List α), l.length ≤ n → (chunkList cs hcs l).flatten = l := by
  intro n
  induction n with
  | zero =>
    intro l hl
    have hnil : l = [] := List.length_eq_zero.mp (Nat.le_zero.mp hl)
    subst hnil
    simp [chunkList]
  | succ n ih =>
    intro l hl
    match l with
    | [] => simp [chunkList]
    | x :: xs =>
      have hdrop : ((x :: xs).drop cs).length ≤ n := by
        simp only [List.length_drop, List.length_cons]
        simp only [List.length_cons] at hl
        omega
      calc (chunkList cs hcs (x :: xs)).flatten
          = (x :: xs).take cs ++ (chunkList cs hcs ((x :: xs).drop cs)).flatten := by
            simp only [chunkList, List.flatten_cons]
        _ = (x :: xs).take cs ++ (x :: xs).drop cs := by rw [ih _ hdrop]
        _ = x :: xs := List.take_append_drop cs (x :: xs)

/-- Wrapper of the previous lemma at the natural fuel. -/
theorem chunkList_flatten {α : Type} (cs : ℕ) (hcs : 0 < cs) (l : List α) :
    (chunkList cs hcs l).flatten = l :=
  chunkList_flatten_aux cs hcs l.length l le_rfl

/-- Concatenating the per-chunk worker results in chunk order yields
exactly the serial result: each chunk applies the same per-point function
and the chunks partition the time points in order. -/
theorem chunks_flatten_eq_single (frameData : List (ℚ × ℕ)) (windowSize : ℚ)
    (cs : ℕ) (hcs : 0 < cs) (timePoints : List ℚ) :
    ((chunkList cs hcs timePoints).map
        (fun c => calculate_chunk frameData c windowSize)).flatten =
      calculate_bitrate_single frameData timePoints windowSize := by
  unfold calculate_chunk calculate_bitrate_single
  rw [← List.map_flatten, chunkList_flatten]

/-- The serial result is sorted by reported time whenever the time points
are non-decreasing. -/
theorem single_sorted (frameData : List (ℚ × ℕ)) (windowSize : ℚ)
    (timePoints : List ℚ) (hp : timePoints.Pairwise (· ≤ ·)) :
    List.Pairwise (fun a b => (decide (a.1 ≤ b.1)) = true)
      (calculate_bitrate_single frameData timePoints windowSize) := by
  unfold calculate_bitrate_single
  refine List.Pairwise.map _ ?_ hp
  intro a b hab
  simp only [decide_eq_true_eq]
  linarith

/-- C2: for every packet list, duration, window_size > 0 and worker
budget, the parallel computation — contiguous chunking of the time
points, independent per-chunk computation over the full packet list,
concatenation and re-sort by time — returns the same series as the
serial computation: the same time points in the same order with equal
bitrate values. -/
theorem parallel_eq_serial (packets : List Packet) (duration windowSize : ℚ)
    (numWorkers : ℕ) (hw : 0 < windowSize) :
    calculate_bitrate_parallel packets duration windowSize numWorkers =
      calculate_bitrate_serial packets duration windowSize := by
  simp only [calculate_bitrate_parallel, calculate_bitrate_serial]
  split_ifs with h1 h2
  · rfl
  · rfl
  · rw [chunks_flatten_eq_single]
    exact List.mergeSort_of_sorted
      (single_sorted _ _ _ (genTimePoints_pairwise _ _ (by positivity)))

/-- Witness for parallel_eq_serial at a concrete input. -/
theorem parallel_eq_serial_witness :
    (0 : ℚ) < 1 ∧
      calculate_bitrate_parallel [⟨some 0, 100⟩] 0 1 4 =
        calculate_bitrate_serial [⟨some 0, 100⟩] 0 1 :=
  ⟨by norm_num, parallel_eq_serial [⟨some 0, 100⟩] 0 1 4 (by norm_num)⟩

/-- C8: an empty packet list, or one with no usable timestamp, makes
compute return an empty series — on both the parallel entry point and the
serial path — for every duration, window size and worker budget, raising
no error. -/
theorem compute_empty_series (packets : List Packet) (duration windowSize : ℚ)
    (numWorkers : ℕ) (h : prepareFrameData packets = []) :
    calculate_bitrate_parallel packets duration windowSize numWorkers = [] ∧
      calculate_bitrate_serial packets duration windowSize = [] := by
  constructor
  · simp [calculate_bitrate_parallel, h]
  · simp [calculate_bitrate_serial, h]

/-- Witness for compute_empty_series: a packet whose timestamp is
unavailable is filtered out, and compute yields the empty series. -/
theorem compute_empty_series_witness :
    prepareFrameData [⟨none, 7⟩] = [] ∧
      calculate_bitrate_parallel [⟨none, 7⟩] 5 (1/2) 3 = [] ∧
      calculate_bitrate_serial [⟨none, 7⟩] 5 (1/2) = [] :=
  ⟨rfl, (compute_empty_series [⟨none, 7⟩] 5 (1/2) 3 rfl).1,
    (compute_empty_series [⟨none, 7⟩] 5 (1/2) 3 rfl).2⟩

/-- C9: if any worker of the parallel computation fails, the whole
computation falls back to serial execution over all time points and
returns the complete serial series; a partial series assembled from
surviving chunks is never returned.  The conclusion holds for every
failure pattern, so in particular for any failing worker. -/
theorem worker_failure_serial_fallback (failures : ℕ → Bool)
    (packets : List Packet) (duration windowSize : ℚ) (numWorkers : ℕ)
    (hw : 0 < windowSize) (_hfail : ∃ i, failures i = true) :
    calculate_bitrate_parallel_oracle failures packets duration windowSize
        numWorkers =
      calculate_bitrate_serial packets duration windowSize := by
  simp only [calculate_bitrate_parallel_oracle, calculate_bitrate_serial]
  split_ifs with h1 h2 h3
  · rfl
  · rfl
  · rfl
  · rw [chunks_flatten_eq_single]
    exact List.mergeSort_of_sorted
      (single_sorted _ _ _ (genTimePoints_pairwise _ _ (by positivity)))

/-- Witness for worker_failure_serial_fallback: every worker failing at a
concrete input still yields the full serial series. -/
theorem worker_failure_serial_fallback_witness :
    (0 : ℚ) < 1 ∧ ((fun _ : ℕ => true) 0 = true) ∧
      calculate_bitrate_parallel_oracle (fun _ => true) [⟨some 0, 100⟩] 0 1 4 =
        calculate_bitrate_serial [⟨some 0, 100⟩] 0 1 :=
  ⟨by norm_num, rfl,
    worker_failure_serial_fallback (fun _ => true) [⟨some 0, 100⟩] 0 1 4
      (by norm_num) ⟨0, rfl⟩⟩

/-- C1: for every packet list with at least one valid (timestamp, size)
entry and every window_size > 0, the serial computation produces exactly
one sample per generated time point; the time points are 0, step, 2·step,
… with step = window_size / 2, kept while ≤ the effective duration
max(total_duration, last packet timestamp); the sample for time point t
is reported at t + window_size / 2 with bitrate
8 · Σ(size_bytes of packets with t ≤ timestamp < t + window_size)
/ window_size / 1000; a window containing zero packets yields the sample
(t + window_size / 2, 0). -/
theorem serial_computation_spec (packets : List Packet)
    (duration windowSize : ℚ) (hw : 0 < windowSize)
    (hne : prepareFrameData packets ≠ []) :
    calculate_bitrate_serial packets duration windowSize =
        calculate_bitrate_single (engineFrameData packets)
          (engineTimePoints packets duration windowSize) windowSize ∧
      (calculate_bitrate_serial packets duration windowSize).length =
        (engineTimePoints packets duration windowSize).length ∧
      engineTimePoints packets duration windowSize =
        (List.range (if 0 ≤ engineActualDuration packets duration then
            (⌊engineActualDuration packets duration / (windowSize / 2)⌋).toNat + 1
          else 0)).map (fun k : ℕ => (k : ℚ) * (windowSize / 2)) ∧
      (∀ t ∈ engineTimePoints packets duration windowSize,
        t ≤ engineActualDuration packets duration) ∧
      calculate_bitrate_serial packets duration windowSize =
        (engineTimePoints packets duration windowSize).map (fun t =>
          (t + windowSize / 2,
            8 * (((engineFrameData packets).filter
                (fun q => decide (t ≤ q.1) && decide (q.1 < t + windowSize))).map
              (fun q => (q.2 : ℚ))).sum / windowSize / 1000)) ∧
      (∀ t ∈ engineTimePoints packets duration windowSize,
        ((engineFrameData packets).filter
            (fun q => decide (t ≤ q.1) && decide (q.1 < t + windowSize))) = [] →
          (t + windowSize / 2, 0) ∈ calculate_bitrate_serial packets duration windowSize) := by
  have hstep : 0 < windowSize / 2 := by positivity
  have hser : calculate_bitrate_serial packets duration windowSize =
      calculate_bitrate_single (engineFrameData packets)
        (engineTimePoints packets duration windowSize) windowSize := by
    rw [calculate_bitrate_serial, if_neg hne]
  refine ⟨hser, ?_, ?_, ?_, ?_, ?_⟩
  · rw [hser]
    simp [calculate_bitrate_single]
  · rw [engineTimePoints, genTimePoints_closed _ _ hstep]
  · intro t ht
    exact genTimePoints_le _ _ hstep t ht
  · rw [hser]
    unfold calculate_bitrate_single
    apply List.map_congr_left
    intro t _
    unfold windowBitrate
    rw [List.sum_map_mul_right]
    rw [mul_comm ((List.map (fun q => (q.2 : ℚ))
      ((engineFrameData packets).filter
        (fun q => decide (t ≤ q.1) && decide (q.1 < t + windowSize)))).sum) 8]
  · intro t ht hfilter
    rw [hser]
    unfold calculate_bitrate_single
    have hz : windowBitrate (engineFrameData packets) windowSize t = 0 := by
      unfold windowBitrate
      rw [hfilter]
      simp
    rw [← hz]
    exact List.mem_map_of_mem _ ht

/-- Witness for serial_computation_spec at a concrete input (here only the
one-sample-per-time-point conjunct is spelled out). -/
theorem serial_computation_spec_witness :
    (0 : ℚ) < 1 ∧ prepareFrameData [⟨some 0, 1000⟩] ≠ [] ∧
      (calculate_bitrate_serial [⟨some 0, 1000⟩] 1 1).length =
        (engineTimePoints [⟨some 0, 1000⟩] 1 1).length :=
  ⟨by norm_num, by decide,
    (serial_computation_spec [⟨some 0, 1000⟩] 1 1 (by norm_num) (by decide)).2.1⟩

/-- The frame data of spec Scenario A evaluates to the three packets in
timestamp order. -/
theorem scenarioA_frameData :
    engineFrameData [⟨some 0, 1000⟩, ⟨some (1/20), 1000⟩, ⟨some (1/10), 1000⟩] =
      [(0, 1000), ((1/20 : ℚ), 1000), ((1/10 : ℚ), 1000)] := by
  rw [engineFrameData,
    show prepareFrameData [⟨some 0, 1000⟩, ⟨some (1/20), 1000⟩, ⟨some (1/10), 1000⟩] =
      [(0, 1000), ((1/20 : ℚ), 1000), ((1/10 : ℚ), 1000)] from rfl]
  refine List.mergeSort_of_sorted ?_
  simp only [List.pairwise_cons, List.mem_cons, decide_eq_true_eq]
  norm_num

/-- The time points of spec Scenario A evaluate to 0, 0.05 and 0.1. -/
theorem scenarioA_timePoints :
    engineTimePoints [⟨some 0, 1000⟩, ⟨some (1/20), 1000⟩, ⟨some (1/10), 1000⟩]
        (1/10) (1/10) = [0, 1/20, 1/10] := by
  have hdur : engineActualDuration
      [⟨some 0, 1000⟩, ⟨some (1/20), 1000⟩, ⟨some (1/10), 1000⟩] (1/10) = 1/10 := by
    rw [engineActualDuration, scenarioA_frameData,
      show lastFrameTime [(0, 1000), ((1/20 : ℚ), 1000), ((1/10 : ℚ), 1000)] = 1/10 from rfl]
    exact max_self _
  have hfloor : ⌊(1/10 : ℚ) / (1/10 / 2)⌋ = 2 := by
    rw [Int.floor_eq_iff]
    constructor
    · norm_num
    · norm_num
  rw [engineTimePoints, hdur, genTimePoints_closed _ _ (by norm_num),
    if_pos (by norm_num : (0 : ℚ) ≤ 1/10), hfloor,
    show ((2 : ℤ).toNat + 1) = 3 from rfl, show List.range 3 = [0, 1, 2] from rfl]
  norm_num

/-- C3 counterexample: on Scenario A the engine generates three time
points, 0, 0.05 and 0.1 — not two; the declared duration 0.1 itself
satisfies the loop condition t ≤ actual_duration and is included. -/
theorem scenario_a_counterexample :
    engineTimePoints [⟨some 0, 1000⟩, ⟨some (1/20), 1000⟩, ⟨some (1/10), 1000⟩]
        (1/10) (1/10) = [0, 1/20, 1/10] ∧
      (engineTimePoints [⟨some 0, 1000⟩, ⟨some (1/20), 1000⟩, ⟨some (1/10), 1000⟩]
        (1/10) (1/10)).length ≠ 2 := by
  refine ⟨scenarioA_timePoints, ?_⟩
  rw [scenarioA_timePoints]
  decide

/-- C3 amended: Scenario A generates the three time points 0, 0.05, 0.1;
the sample at center 0.05 (time point 0) aggregates the packets at 0.0
and 0.05 giving 8·2000/0.1/1000 = 160 kbps, and the full serial series is
[(0.05, 160), (0.10, 160), (0.15, 80)]. -/
theorem scenario_a_amended :
    engineTimePoints [⟨some 0, 1000⟩, ⟨some (1/20), 1000⟩, ⟨some (1/10), 1000⟩]
        (1/10) (1/10) = [0, 1/20, 1/10] ∧
      calculate_bitrate_serial [⟨some 0, 1000⟩, ⟨some (1/20), 1000⟩, ⟨some (1/10), 1000⟩]
        (1/10) (1/10) = [(1/20, 160), (1/10, 160), (3/20, 80)] := by
  refine ⟨scenarioA_timePoints, ?_⟩
  rw [calculate_bitrate_serial, if_neg (by decide), scenarioA_frameData,
    scenarioA_timePoints]
  simp only [calculate_bitrate_single, windowBitrate, List.map_cons, List.map_nil]
  norm_num [List.filter_cons]

/-- The final clamps view_start = max(0, ·), view_end = min(1, ·) preserve
the viewport invariant whenever the clamped pair already satisfies it. -/
theorem clamp_pair_inv (mvr a b : ℚ) (hm : 0 < mvr) (_hmvr1 : mvr ≤ 1)
    (h0 : 0 ≤ a) (hb1 : b ≤ 1) (hab : mvr ≤ b - a) :
    viewportInv mvr (max 0 a) (min 1 b) := by
  rw [max_eq_right h0, min_eq_right hb1]
  exact ⟨h0, by linarith, hb1, hab⟩

/-- The shared tail of the two zoom handlers — shift the window inside
[0, 1] then clamp — preserves the invariant for any window of width nr
with min_view_range ≤ nr ≤ 1. -/
theorem seqClamp_inv (mvr ns ne nr : ℚ) (hm : 0 < mvr) (hmvr1 : mvr ≤ 1)
    (hnrm : mvr ≤ nr) (hnr1 : nr ≤ 1) (hdiff : ne = ns + nr) :
    viewportInv mvr
      (max 0 (if (if ns < 0 then nr else ne) > 1 then 1 - nr
        else if ns < 0 then 0 else ns))
      (min 1 (if (if ns < 0 then nr else ne) > 1 then 1
        else if ns < 0 then nr else ne)) := by
  by_cases h1 : ns < 0
  · simp only [if_pos h1]
    by_cases h2 : nr > 1
    · simp only [if_pos h2]
      exact clamp_pair_inv _ _ _ hm hmvr1 (by linarith) le_rfl (by linarith)
    · simp only [if_neg h2]
      exact clamp_pair_inv _ _ _ hm hmvr1 le_rfl hnr1 (by linarith)
  · simp only [if_neg h1]
    by_cases h2 : ne > 1
    · simp only [if_pos h2]
      exact clamp_pair_inv _ _ _ hm hmvr1 (by linarith) le_rfl (by linarith)
    · simp only [if_neg h2]
      exact clamp_pair_inv _ _ _ hm hmvr1 (by linarith) (by linarith) (by linarith)

/-- The unclamped shift used by the thumbnail move drag preserves the
invariant for any window of width r with min_view_range ≤ r ≤ 1. -/
theorem seqMove_inv (mvr ns ne r : ℚ) (hm : 0 < mvr)
    (hr : mvr ≤ r) (hr1 : r ≤ 1) (hdiff : ne = ns + r) :
    viewportInv mvr
      (if (if ns < 0 then r else ne) > 1 then 1 - r
        else if ns < 0 then 0 else ns)
      (if (if ns < 0 then r else ne) > 1 then 1
        else if ns < 0 then r else ne) := by
  by_cases h1 : ns < 0
  · simp only [if_pos h1]
    by_cases h2 : r > 1
    · simp only [if_pos h2]
      exact ⟨by linarith, by linarith, le_rfl, by linarith⟩
    · simp only [if_neg h2]
      exact ⟨le_rfl, by linarith, by linarith, by linarith⟩
  · simp only [if_neg h1]
    by_cases h2 : ne > 1
    · simp only [if_pos h2]
      exact ⟨by linarith, by linarith, le_rfl, by linarith⟩
    · simp only [if_neg h2]
      exact ⟨by linarith, by linarith, by linarith, by linarith⟩

/-- C6: from any viewport state satisfying the invariant 0 ≤ start < end
≤ 1 with width ≥ min_view_range > 0, every button zoom (any non-zero
factor), every wheel zoom (any anchor center, either direction), and
every thumbnail drag (move, left handle, right handle, any displacement)
produces a state that still satisfies the invariant; the operations
compute nothing but the new pair of viewport fractions. -/
theorem viewport_ops_preserve_invariant (minViewRange viewStart viewEnd : ℚ)
    (hm : 0 < minViewRange)
    (hinv : viewportInv minViewRange viewStart viewEnd) :
    (∀ factor : ℚ, factor ≠ 0 →
        viewportInv minViewRange (zoomOp minViewRange viewStart viewEnd factor).1
          (zoomOp minViewRange viewStart viewEnd factor).2) ∧
      (∀ (center : ℚ) (wheelUp : Bool),
        viewportInv minViewRange
          (wheelZoomOp minViewRange viewStart viewEnd center wheelUp).1
          (wheelZoomOp minViewRange viewStart viewEnd center wheelUp).2) ∧
      (∀ dRatio : ℚ,
        viewportInv minViewRange (dragMoveOp viewStart viewEnd dRatio).1
          (dragMoveOp viewStart viewEnd dRatio).2) ∧
      (∀ dRatio : ℚ,
        viewportInv minViewRange
          (dragLeftOp minViewRange viewStart viewEnd dRatio).1
          (dragLeftOp minViewRange viewStart viewEnd dRatio).2) ∧
      (∀ dRatio : ℚ,
        viewportInv minViewRange
          (dragRightOp minViewRange viewStart viewEnd dRatio).1
          (dragRightOp minViewRange viewStart viewEnd dRatio).2) := by
  obtain ⟨h0, hse, he1, hmr⟩ := hinv
  have hmvr1 : minViewRange ≤ 1 := by linarith
  refine ⟨?_, ?_, ?_, ?_, ?_⟩
  · intro factor _hfac
    simp only [zoomOp]
    exact seqClamp_inv _ _ _ _ hm hmvr1 (le_max_left _ _)
      (max_le hmvr1 (min_le_left _ _)) (by ring)
  · intro center wheelUp
    simp only [wheelZoomOp]
    exact seqClamp_inv _ _ _ _ hm hmvr1 (le_max_left _ _)
      (max_le hmvr1 (min_le_left _ _)) rfl
  · intro dRatio
    simp only [dragMoveOp]
    exact seqMove_inv _ _ _ _ hm (by linarith) (by linarith) (by ring)
  · intro dRatio
    simp only [dragLeftOp]
    refine ⟨le_max_left _ _, ?_, he1, ?_⟩
    · exact max_lt (by linarith) (lt_of_le_of_lt (min_le_left _ _) (by linarith))
    · have hx : max 0 (min (viewEnd - minViewRange) (viewStart + dRatio)) ≤
          viewEnd - minViewRange := max_le (by linarith) (min_le_left _ _)
      linarith
  · intro dRatio
    simp only [dragRightOp]
    refine ⟨h0, ?_, ?_, ?_⟩
    · exact lt_of_lt_of_le (by linarith) (le_max_left _ _)
    · exact max_le (by linarith) (min_le_left _ _)
    · have hx : viewStart + minViewRange ≤
          max (viewStart + minViewRange) (min 1 (viewEnd + dRatio)) := le_max_left _ _
      linarith

/-- Witness for viewport_ops_preserve_invariant: the full view of the GUI
default (min_view_range = 0.005) zoomed by factor 2 still satisfies the
invariant. -/
theorem viewport_ops_preserve_invariant_witness :
    (0 : ℚ) < 1/200 ∧ viewportInv (1/200) 0 1 ∧
      viewportInv (1/200) (zoomOp (1/200) 0 1 2).1 (zoomOp (1/200) 0 1 2).2 :=
  ⟨by norm_num, ⟨le_rfl, by norm_num, le_rfl, by norm_num⟩,
    (viewport_ops_preserve_invariant (1/200) 0 1 (by norm_num)
      ⟨le_rfl, by norm_num, le_rfl, by norm_num⟩).1 2 (by norm_num)⟩

/-- Any non-empty slice keeps its first and last element in the decimated
output, for every budget: either the slice is returned unchanged, or the
first and last elements are force-included before the final re-sort. -/
theorem decimate_endpoints_mem (slice : List (ℚ × ℚ)) (budget : ℕ)
    (hne : slice ≠ []) :
    slice.head hne ∈ decimate slice budget ∧
      slice.getLast hne ∈ decimate slice budget := by
  by_cases hlen : slice.length ≤ budget
  · rw [decimate.eq_def, if_pos hlen]
    exact ⟨List.head_mem hne, List.getLast_mem hne⟩
  · match slice, hne with
    | x :: rest, hne =>
      rw [decimate.eq_def, if_neg hlen]
      dsimp only
      refine ⟨?_, ?_⟩
      · rw [sortByFst, List.mem_mergeSort]
        exact List.mem_append_left _ (List.mem_cons_self x _)
      · rw [sortByFst, List.mem_mergeSort]
        exact List.mem_append_right _ (List.mem_singleton_self _)

/-- C7: for every non-empty input slice and budget ≥ 2, the decimation
keeps the slice's first and last element in its output, on both the
dynamic viewport path and the fixed-budget-400 overview path. -/
theorem decimate_first_last (slice : List (ℚ × ℚ)) (budget : ℕ)
    (hne : slice ≠ []) (_hb : 2 ≤ budget) :
    slice.head hne ∈ decimate slice budget ∧
      slice.getLast hne ∈ decimate slice budget ∧
      slice.head hne ∈ prepare_thumbnail_data slice ∧
      slice.getLast hne ∈ prepare_thumbnail_data slice :=
  ⟨(decimate_endpoints_mem slice budget hne).1,
    (decimate_endpoints_mem slice budget hne).2,
    (decimate_endpoints_mem slice 400 hne).1,
    (decimate_endpoints_mem slice 400 hne).2⟩

/-- Witness for decimate_first_last on a slice of length 3 with budget 2,
which exercises the bucketed branch. -/
theorem decimate_first_last_witness :
    (([((0 : ℚ), (1 : ℚ)), (1, 5), (2, 3)] : List (ℚ × ℚ)) ≠ []) ∧ 2 ≤ 2 ∧
      ((0 : ℚ), (1 : ℚ)) ∈ decimate [((0 : ℚ), (1 : ℚ)), (1, 5), (2, 3)] 2 ∧
      ((2 : ℚ), (3 : ℚ)) ∈ decimate [((0 : ℚ), (1 : ℚ)), (1, 5), (2, 3)] 2 :=
  ⟨by simp, by omega,
    (decimate_first_last [((0 : ℚ), (1 : ℚ)), (1, 5), (2, 3)] 2 (by simp) (by omega)).1,
    (decimate_first_last [((0 : ℚ), (1 : ℚ)), (1, 5), (2, 3)] 2 (by simp) (by omega)).2.1⟩

/-- The leftmost insertion point never exceeds the list length. -/
theorem bisect_left_le_length (l : List ℚ) (x : ℚ) :
    bisect_left l x ≤ l.length := by
  induction l with
  | nil => simp [bisect_left]
  | cons y ys ih =>
    simp only [bisect_left, List.length_cons]
    split_ifs
    · omega
    · omega

/-- The rightmost insertion point never exceeds the list length. -/
theorem bisect_right_le_length (l : List ℚ) (x : ℚ) :
    bisect_right l x ≤ l.length := by
  induction l with
  | nil => simp [bisect_right]
  | cons y ys ih =>
    simp only [bisect_right, List.length_cons]
    split_ifs
    · omega
    · omega

/-- Every element strictly before the left insertion point is < x. -/
theorem get_lt_of_lt_bisect_left (l : List ℚ) (x : ℚ) :
    ∀ (i : ℕ) (h : i < l.length), i < bisect_left l x → l.get ⟨i, h⟩ < x := by
  induction l with
  | nil => intro i h; simp at h
  | cons y ys ih =>
    intro i h hi
    simp only [bisect_left] at hi
    split_ifs at hi with hy
    · cases i with
      | zero => exact hy
      | succ j => exact ih j (by simpa using h) (by omega)
    · omega

/-- On a sorted list, every element at or after the left insertion point
is ≥ x. -/
theorem le_get_of_bisect_left_le (l : List ℚ) (x : ℚ)
    (hs : l.Pairwise (· ≤ ·)) :
    ∀ (i : ℕ) (h : i < l.length), bisect_left l x ≤ i → x ≤ l.get ⟨i, h⟩ := by
  induction l with
  | nil => intro i h; simp at h
  | cons y ys ih =>
    intro i h hi
    rw [List.pairwise_cons] at hs
    simp only [bisect_left] at hi
    split_ifs at hi with hy
    · cases i with
      | zero => omega
      | succ j => exact ih hs.2 j (by simpa using h) (by omega)
    · cases i with
      | zero => exact le_of_not_lt hy
      | succ j =>
        have hj : j < ys.length := by simpa using h
        exact le_trans (le_of_not_lt hy) (hs.1 _ (List.get_mem ys j hj))

/-- Every element strictly before the right insertion point is ≤ x. -/
theorem get_le_of_lt_bisect_right (l : List ℚ) (x : ℚ) :
    ∀ (i : ℕ) (h : i < l.length), i < bisect_right l x → l.get ⟨i, h⟩ ≤ x := by
  induction l with
  | nil => intro i h; simp at h
  | cons y ys ih =>
    intro i h hi
    simp only [bisect_right] at hi
    split_ifs at hi with hy
    · cases i with
      | zero => exact hy
      | succ j => exact ih j (by simpa using h) (by omega)
    · omega

/-- On a sorted list, every element at or after the right insertion point
is > x. -/
theorem lt_get_of_bisect_right_le (l : List ℚ) (x : ℚ)
    (hs : l.Pairwise (· ≤ ·)) :
    ∀ (i : ℕ) (h : i < l.length), bisect_right l x ≤ i → x < l.get ⟨i, h⟩ := by
  induction l with
  | nil => intro i h; simp at h
  | cons y ys ih =>
    intro i h hi
    rw [List.pairwise_cons] at hs
    simp only [bisect_right] at hi
    split_ifs at hi with hy
    · cases i with
      | zero => omega
      | succ j => exact ih hs.2 j (by simpa using h) (by omega)
    · cases i with
      | zero => exact lt_of_not_le hy
      | succ j =>
        have hj : j < ys.length := by simpa using h
        exact lt_of_lt_of_le (lt_of_not_le hy) (hs.1 _ (List.get_mem ys j hj))

/-- When the query interval is ordered, the left insertion point of its
lower end is at most the right insertion point of its upper end. -/
theorem bisect_left_le_bisect_right (l : List ℚ) (s e : ℚ)
    (hs : l.Pairwise (· ≤ ·)) (hse : s ≤ e) :
    bisect_left l s ≤ bisect_right l e := by
  by_contra hlt
  push_neg at hlt
  have hR : bisect_right l e < l.length :=
    lt_of_lt_of_le hlt (bisect_left_le_length l s)
  have h1 : l.get ⟨bisect_right l e, hR⟩ < s :=
    get_lt_of_lt_bisect_left l s _ hR hlt
  have h2 : e < l.get ⟨bisect_right l e, hR⟩ :=
    lt_get_of_bisect_right_le l e hs _ hR le_rfl
  linarith

/-- If every element of the list is < x, the left insertion point is the
length. -/
theorem bisect_left_eq_length (l : List ℚ) (x : ℚ) (h : ∀ y ∈ l, y < x) :
    bisect_left l x = l.length := by
  induction l with
  | nil => simp [bisect_left]
  | cons y ys ih =>
    simp only [bisect_left, List.length_cons]
    rw [if_pos (h y (List.mem_cons_self y ys)), ih (fun z hz => h z (List.mem_cons_of_mem y hz))]

/-- If every element of the list is ≤ x, the right insertion point is the
length. -/
theorem bisect_right_eq_length (l : List ℚ) (x : ℚ) (h : ∀ y ∈ l, y ≤ x) :
    bisect_right l x = l.length := by
  induction l with
  | nil => simp [bisect_right]
  | cons y ys ih =>
    simp only [bisect_right, List.length_cons]
    rw [if_pos (h y (List.mem_cons_self y ys)), ih (fun z hz => h z (List.mem_cons_of_mem y hz))]

/-- Dropping all but the last element leaves exactly the last element. -/
theorem drop_length_sub_one {α : Type} (l : List α) (hne : l ≠ []) :
    l.drop (l.length - 1) = [l.getLast hne] := by
  induction l with
  | nil => exact absurd rfl hne
  | cons x xs ih =>
    cases xs with
    | nil => simp
    | cons z zs =>
      have hxs' : z :: zs ≠ [] := List.cons_ne_nil z zs
      have hlen : (x :: z :: zs).length - 1 = ((z :: zs).length - 1) + 1 := by simp
      rw [hlen, List.drop_succ_cons, ih hxs', List.getLast_cons hxs']

/-- On a series sorted by time, every sample's time is at most the last
sample's time. -/
theorem fst_le_getLast (data : List (ℚ × ℚ)) (hne : data ≠ [])
    (hs : data.Pairwise (fun a b => a.1 ≤ b.1)) :
    ∀ q ∈ data, q.1 ≤ (data.getLast hne).1 := by
  induction data with
  | nil => exact absurd rfl hne
  | cons y ys ih =>
    rw [List.pairwise_cons] at hs
    intro q hq
    cases ys with
    | nil =>
      simp at hq
      subst hq
      simp
    | cons z zs =>
      have hys' : z :: zs ≠ [] := List.cons_ne_nil z zs
      rw [List.getLast_cons hys']
      rcases List.mem_cons.mp hq with hq | hq
      · subst hq
        exact hs.1 _ (List.getLast_mem hys')
      · exact ih hys' hs.2 q hq

/-- A slice already within budget is returned unchanged by the
decimation. -/
theorem decimate_small (slice : List (ℚ × ℚ)) (budget : ℕ)
    (h : slice.length ≤ budget) : decimate slice budget = slice := by
  rw [decimate.eq_def, if_pos h]

/-- C4 counterexample: for the two-sample series with times 1 and 2 and
the fully-outside range [5, 6], the range query returns the one-element
slice holding the last sample — not an empty slice. -/
theorem outside_range_counterexample :
    get_visible_data [((1 : ℚ), (10 : ℚ)), (2, 20)] 5 6 1500 =
        [((2 : ℚ), (20 : ℚ))] ∧
      get_visible_data [((1 : ℚ), (10 : ℚ)), (2, 20)] 5 6 1500 ≠ [] := by
  constructor
  · rw [get_visible_data,
      show get_visible_range [((1 : ℚ), (10 : ℚ)), (2, 20)] 5 6 =
        [((2 : ℚ), (20 : ℚ))] by decide]
    exact decimate_small _ _ (by simp)
  · rw [get_visible_data,
      show get_visible_range [((1 : ℚ), (10 : ℚ)), (2, 20)] 5 6 =
        [((2 : ℚ), (20 : ℚ))] by decide]
    rw [decimate_small _ _ (by simp)]
    simp

/-- C4 amended: for a non-empty series sorted by time and a requested
range [s, e] lying entirely outside the series' time bounds, the range
query raises no error and returns the one-element slice holding the
nearest boundary sample (the one-extra-sample padding keeps one sample),
never more than one sample — but not an empty slice. -/
theorem outside_range_single_sample (data : List (ℚ × ℚ)) (s e : ℚ)
    (hne : data ≠ []) (hsorted : data.Pairwise (fun a b => a.1 ≤ b.1))
    (hse : s ≤ e)
    (hout : e < (data.head hne).1 ∨ (data.getLast hne).1 < s) :
    (get_visible_data data s e 1500 = [data.head hne] ∨
        get_visible_data data s e 1500 = [data.getLast hne]) ∧
      (get_visible_data data s e 1500).length ≤ 1 := by
  have hmain : get_visible_data data s e 1500 = [data.head hne] ∨
      get_visible_data data s e 1500 = [data.getLast hne] := by
    rcases hout with hout | hout
    · left
      match data, hne with
      | y :: ys, hne =>
        simp only [List.head_cons] at hout ⊢
        have hL : bisect_left (List.map Prod.fst (y :: ys)) s = 0 := by
          simp only [List.map_cons, bisect_left]
          rw [if_neg (by push_neg; linarith)]
        have hR : bisect_right (List.map Prod.fst (y :: ys)) e = 0 := by
          simp only [List.map_cons, bisect_right]
          rw [if_neg (by push_neg; linarith)]
        have hslice : get_visible_range (y :: ys) s e = [y] := by
          rw [get_visible_range, if_neg (List.cons_ne_nil y ys)]
          simp only [hL, hR]
          rw [show (0 : ℕ) - 1 = 0 by omega,
            show min (y :: ys).length (0 + 1) = 1 from
              min_eq_right (by simp), List.drop_zero]
          simp
        rw [get_visible_data, hslice, decimate_small _ _ (by simp)]
    · right
      have halllt : ∀ z ∈ List.map Prod.fst data, z < s := by
        intro z hz
        rcases List.mem_map.mp hz with ⟨q, hq, rfl⟩
        exact lt_of_le_of_lt (fst_le_getLast data hne hsorted q hq) hout
      have hL : bisect_left (List.map Prod.fst data) s =
          (List.map Prod.fst data).length := bisect_left_eq_length _ _ halllt
      have hR : bisect_right (List.map Prod.fst data) e =
          (List.map Prod.fst data).length :=
        bisect_right_eq_length _ _ (fun z hz => le_of_lt
          (lt_of_lt_of_le (halllt z hz) hse))
      have hslice : get_visible_range data s e = [data.getLast hne] := by
        rw [get_visible_range, if_neg hne]
        simp only [hL, hR, List.length_map]
        rw [show min data.length (data.length + 1) = data.length from
          min_eq_left (by omega), List.take_length]
        exact drop_length_sub_one data hne
      rw [get_visible_data, hslice, decimate_small _ _ (by simp)]
  refine ⟨hmain, ?_⟩
  rcases hmain with h | h <;> rw [h] <;> simp

/-- Witness for outside_range_single_sample at a concrete series and an
out-of-bounds range above the last sample. -/
theorem outside_range_single_sample_witness :
    ((([((1 : ℚ), (10 : ℚ)), (2, 20)]) : List (ℚ × ℚ)) ≠ []) ∧ (5 : ℚ) ≤ 6 ∧
      (get_visible_data [((1 : ℚ), (10 : ℚ)), (2, 20)] 5 6 1500 =
          [((1 : ℚ), (10 : ℚ))] ∨
        get_visible_data [((1 : ℚ), (10 : ℚ)), (2, 20)] 5 6 1500 =
          [((2 : ℚ), (20 : ℚ))]) :=
  ⟨by simp, by norm_num,
    (outside_range_single_sample [((1 : ℚ), (10 : ℚ)), (2, 20)] 5 6 (by simp)
      (by norm_num [List.pairwise_cons]) (by norm_num)
      (Or.inr (by norm_num [List.getLast]))).1⟩

/-- Splitting a contiguous slice of a list at an intermediate index. -/
theorem take_drop_split (data : List (ℚ × ℚ)) (i j k : ℕ) (hij : i ≤ j)
    (hjk : j ≤ k) (hjlen : j ≤ data.length) :
    (data.take k).drop i = (data.take j).drop i ++ (data.take k).drop j := by
  have h1 : data.take k = data.take j ++ (data.take k).drop j := by
    conv_lhs => rw [← List.take_append_drop j (data.take k)]
    rw [List.take_take, min_eq_left hjk]
  conv_lhs => rw [h1]
  rw [List.drop_append_eq_append_drop, List.length_take,
    min_eq_left hjlen, show i - j = 0 by omega, List.drop_zero]

/-- If a predicate holds exactly on the index block [L, R) of a list, the
filtered list is that contiguous block. -/
theorem filter_eq_block (data : List (ℚ × ℚ)) (p : ℚ × ℚ → Bool) (L R : ℕ)
    (hLR : L ≤ R) (hRlen : R ≤ data.length)
    (hlo : ∀ (i : ℕ) (h : i < data.length), i < L → ¬ p data[i] = true)
    (hmid : ∀ (i : ℕ) (h : i < data.length), L ≤ i → i < R → p data[i] = true)
    (hhi : ∀ (i : ℕ) (h : i < data.length), R ≤ i → ¬ p data[i] = true) :
    data.filter p = (data.take R).drop L := by
  have hLlen : L ≤ data.length := le_trans hLR hRlen
  have h2 : data.take R = data.take L ++ (data.take R).drop L := by
    have h3 := take_drop_split data 0 L R (Nat.zero_le _) hLR hLlen
    simpa using h3
  have hdecomp : data = data.take L ++
      ((data.take R).drop L ++ data.drop R) := by
    conv_lhs => rw [← List.take_append_drop R data, h2]
    rw [List.append_assoc]
  conv_lhs => rw [hdecomp]
  rw [List.filter_append, List.filter_append]
  have hA : (data.take L).filter p = [] := by
    rw [List.filter_eq_nil_iff]
    intro q hq
    rcases List.mem_take_iff_getElem.mp hq with ⟨i, hi, rfl⟩
    exact hlo i (lt_of_lt_of_le hi (min_le_right _ _))
      (lt_of_lt_of_le hi (min_le_left _ _))
  have hB : ((data.take R).drop L).filter p = (data.take R).drop L := by
    rw [List.filter_eq_self]
    intro q hq
    rcases List.mem_drop_iff_getElem.mp hq with ⟨i, hi, h7⟩
    rw [List.length_take] at hi
    rw [List.getElem_take] at h7
    subst h7
    exact hmid (L + i) (by omega) (by omega) (by omega)
  have hC : (data.drop R).filter p = [] := by
    rw [List.filter_eq_nil_iff]
    intro q hq
    rcases List.mem_drop_iff_getElem.mp hq with ⟨i, hi, h7⟩
    subst h7
    exact hhi (R + i) (by omega) (by omega)
  rw [hA, hB, hC]
  simp

/-- On a series sorted by time, the samples with time in [s, e] are
exactly the contiguous index block between the two insertion points of
the time index. -/
theorem filter_range_eq_seg (data : List (ℚ × ℚ)) (s e : ℚ)
    (hsorted : data.Pairwise (fun a b => a.1 ≤ b.1)) (hse : s ≤ e) :
    data.filter (fun q => decide (s ≤ q.1) && decide (q.1 ≤ e)) =
      (data.take (bisect_right (data.map Prod.fst) e)).drop
        (bisect_left (data.map Prod.fst) s) := by
  have hmono : (data.map Prod.fst).Pairwise (· ≤ ·) :=
    List.Pairwise.map _ (fun a b h => h) hsorted
  have hRlen : bisect_right (data.map Prod.fst) e ≤ data.length := by
    have := bisect_right_le_length (data.map Prod.fst) e
    simpa using this
  have hLR := bisect_left_le_bisect_right (data.map Prod.fst) s e hmono hse
  refine filter_eq_block data _ _ _ hLR hRlen ?_ ?_ ?_
  · intro i h hi
    have h5 := get_lt_of_lt_bisect_left (data.map Prod.fst) s i
      (by simpa using h) hi
    simp only [List.get_eq_getElem, List.getElem_map] at h5
    simp only [Bool.and_eq_true, decide_eq_true_eq, not_and]
    intro hs'
    exact absurd hs' (not_le.mpr h5)
  · intro i h hiL hiR
    have h5 := le_get_of_bisect_left_le (data.map Prod.fst) s hmono i
      (by simpa using h) hiL
    have h6 := get_le_of_lt_bisect_right (data.map Prod.fst) e i
      (by simpa using h) hiR
    simp only [List.get_eq_getElem, List.getElem_map] at h5 h6
    simp only [Bool.and_eq_true, decide_eq_true_eq]
    exact ⟨h5, h6⟩
  · intro i h hi
    have h5 := lt_get_of_bisect_right_le (data.map Prod.fst) e hmono i
      (by simpa using h) hi
    simp only [List.get_eq_getElem, List.getElem_map] at h5
    simp only [Bool.and_eq_true, decide_eq_true_eq, not_and]
    intro _
    exact not_le.mpr h5

/-- C5: for a non-empty series sorted by time and any s ≤ e, the range
query returns the contiguous slice from index max(0, bisect_left − 1) to
min(len, bisect_right + 1); that slice decomposes as at most one extra
sample on the left (the sample just before the in-range block), exactly
the samples with time in [s, e], and at most one extra sample on the
right; it is ordered, contains every in-range sample, and has at most
two more samples than the in-range block. -/
theorem range_query_slice_spec (data : List (ℚ × ℚ)) (s e : ℚ)
    (hne : data ≠ []) (hsorted : data.Pairwise (fun a b => a.1 ≤ b.1))
    (hse : s ≤ e) :
    get_visible_range data s e =
        (data.take (min data.length (bisect_right (data.map Prod.fst) e + 1))).drop
          (bisect_left (data.map Prod.fst) s - 1) ∧
      get_visible_range data s e =
        (data.take (bisect_left (data.map Prod.fst) s)).drop
            (bisect_left (data.map Prod.fst) s - 1) ++
          data.filter (fun q => decide (s ≤ q.1) && decide (q.1 ≤ e)) ++
          (data.take (min data.length (bisect_right (data.map Prod.fst) e + 1))).drop
            (bisect_right (data.map Prod.fst) e) ∧
      (get_visible_range data s e).Pairwise (fun a b => a.1 ≤ b.1) ∧
      (∀ q ∈ data, s ≤ q.1 → q.1 ≤ e → q ∈ get_visible_range data s e) ∧
      (get_visible_range data s e).length ≤
        (data.filter (fun q => decide (s ≤ q.1) && decide (q.1 ≤ e))).length + 2 := by
  have hmono : (data.map Prod.fst).Pairwise (· ≤ ·) :=
    List.Pairwise.map _ (fun a b h => h) hsorted
  have hLlen : bisect_left (data.map Prod.fst) s ≤ data.length := by
    have := bisect_left_le_length (data.map Prod.fst) s
    simpa using this
  have hRlen : bisect_right (data.map Prod.fst) e ≤ data.length := by
    have := bisect_right_le_length (data.map Prod.fst) e
    simpa using this
  have hLR := bisect_left_le_bisect_right (data.map Prod.fst) s e hmono hse
  have hfilter := filter_range_eq_seg data s e hsorted hse
  have h1 : get_visible_range data s e =
      (data.take (min data.length (bisect_right (data.map Prod.fst) e + 1))).drop
        (bisect_left (data.map Prod.fst) s - 1) := by
    rw [get_visible_range, if_neg hne]
  have hRb : bisect_right (data.map Prod.fst) e ≤
      min data.length (bisect_right (data.map Prod.fst) e + 1) :=
    le_min hRlen (by omega)
  have h2 : get_visible_range data s e =
      (data.take (bisect_left (data.map Prod.fst) s)).drop
          (bisect_left (data.map Prod.fst) s - 1) ++
        data.filter (fun q => decide (s ≤ q.1) && decide (q.1 ≤ e)) ++
        (data.take (min data.length (bisect_right (data.map Prod.fst) e + 1))).drop
          (bisect_right (data.map Prod.fst) e) := by
    rw [h1,
      take_drop_split data (bisect_left (data.map Prod.fst) s - 1)
        (bisect_left (data.map Prod.fst) s)
        (min data.length (bisect_right (data.map Prod.fst) e + 1))
        (by omega) (le_trans hLR hRb) hLlen,
      take_drop_split data (bisect_left (data.map Prod.fst) s)
        (bisect_right (data.map Prod.fst) e)
        (min data.length (bisect_right (data.map Prod.fst) e + 1))
        hLR hRb hRlen,
      ← hfilter, ← List.append_assoc]
  refine ⟨h1, h2, ?_, ?_, ?_⟩
  · rw [h1]
    exact List.Pairwise.sublist
      (List.Sublist.trans (List.drop_sublist _ _) (List.take_sublist _ _)) hsorted
  · intro q hq hqs hqe
    rw [h2]
    refine List.mem_append_left _ (List.mem_append_right _ ?_)
    rw [List.mem_filter]
    exact ⟨hq, by simp [hqs, hqe]⟩
  · have hlenA : ((data.take (bisect_left (data.map Prod.fst) s)).drop
        (bisect_left (data.map Prod.fst) s - 1)).length ≤ 1 := by
      rw [List.length_drop, List.length_take]
      omega
    have hlenC : ((data.take (min data.length
        (bisect_right (data.map Prod.fst) e + 1))).drop
        (bisect_right (data.map Prod.fst) e)).length ≤ 1 := by
      rw [List.length_drop, List.length_take]
      omega
    rw [h2]
    simp only [List.length_append]
    omega

/-- Witness for range_query_slice_spec on a concrete three-sample series
with the in-bounds range [1, 1]; here only the containment conjunct is
spelled out. -/
theorem range_query_slice_spec_witness :
    (([((0 : ℚ), (7 : ℚ)), (1, 9), (2, 4)] : List (ℚ × ℚ)) ≠ []) ∧ (1 : ℚ) ≤ 1 ∧
      (∀ q ∈ ([((0 : ℚ), (7 : ℚ)), (1, 9), (2, 4)] : List (ℚ × ℚ)),
        1 ≤ q.1 → q.1 ≤ 1 →
          q ∈ get_visible_range [((0 : ℚ), (7 : ℚ)), (1, 9), (2, 4)] 1 1) :=
  ⟨by simp, le_rfl,
    (range_query_slice_spec [((0 : ℚ), (7 : ℚ)), (1, 9), (2, 4)] 1 1 (by simp)
      (by norm_num [List.pairwise_cons]) le_rfl).2.2.2.1⟩

/-- headD of a non-empty list is its head. -/
theorem headD_eq_head {α : Type} (l : List α) (d : α) (h : l ≠ []) :
    l.headD d = l.head h := by
  cases l with
  | nil => exact absurd rfl h
  | cons a t => rfl

/-- getLastD of a non-empty list is its last element. -/
theorem getLastD_eq_getLast {α : Type} (l : List α) (d : α) (h : l ≠ []) :
    l.getLastD d = l.getLast h := by
  rw [List.getLastD_eq_getLast?, List.getLast?_eq_getLast l h]
  rfl

/-- The head of a sorted list is a lower bound. -/
theorem head_le_of_sorted (l : List ℕ) (hne : l ≠ [])
    (hs : l.Pairwise (· ≤ ·)) : ∀ x ∈ l, l.head hne ≤ x := by
  match l, hne with
  | y :: ys, _ =>
    intro x hx
    rw [List.pairwise_cons] at hs
    rcases List.mem_cons.mp hx with rfl | hx
    · exact le_rfl
    · exact hs.1 x hx

/-- The last element of a sorted list is an upper bound. -/
theorem le_getLast_of_sorted (l : List ℕ) (hne : l ≠ [])
    (hs : l.Pairwise (· ≤ ·)) : ∀ x ∈ l, x ≤ l.getLast hne := by
  induction l with
  | nil => exact absurd rfl hne
  | cons y ys ih =>
    rw [List.pairwise_cons] at hs
    intro x hx
    cases ys with
    | nil =>
      simp at hx
      subst hx
      simp
    | cons z zs =>
      have hys' : z :: zs ≠ [] := List.cons_ne_nil z zs
      rw [List.getLast_cons hys']
      rcases List.mem_cons.mp hx with hx | hx
      · subst hx
        exact hs.1 _ (List.getLast_mem hys')
      · exact ih hys' hs.2 x hx

/-- A bit is set in the OR of 1 << i over a list of indices exactly when
its index is listed. -/
theorem testBit_maskOf (L : List ℕ) (j : ℕ) :
    (maskOf L).testBit j = true ↔ j ∈ L := by
  induction L with
  | nil => simp [maskOf, Nat.zero_testBit]
  | cons i is ih =>
    simp only [maskOf, List.foldr_cons] at ih ⊢
    rw [Nat.testBit_or]
    by_cases hij : i = j
    · subst hij
      simp [Nat.testBit_two_pow_self]
    · rw [Nat.testBit_two_pow_of_ne hij]
      simp only [Bool.or_false, ih, List.mem_cons]
      exact ⟨fun h => Or.inr h, fun h => h.resolve_left (fun hh => hij hh.symm)⟩

/-- A positive set-bit count exhibits a set bit below 64. -/
theorem exists_testBit_of_popCount64_pos (n : ℕ) (h : 0 < popCount64 n) :
    ∃ i, i < 64 ∧ n.testBit i = true := by
  rw [popCount64] at h
  rcases List.exists_mem_of_length_pos h with ⟨i, hi⟩
  rw [List.mem_filter] at hi
  exact ⟨i, List.mem_range.mp hi.1, hi.2⟩

/-- C10: in the frequency-clustering topology fallback, the CPU is
classified as hybrid only when the cores' MaxMhz values form at least two
distinct buckets — witnessed by the lowest and highest bucket frequencies
bounding every core's frequency — and the lowest divided by the highest
is below 0.85; and supported is reported true only when both the
resulting efficiency-core group and performance-core group are non-empty
(non-zero masks, with a core below index 64 in each group). -/
theorem hybrid_detection_spec (freqs : List ℕ) :
    ((detect_via_power_info freqs).isSome = true →
        (∃ a ∈ freqs, ∃ b ∈ freqs, a ≠ b) ∧
          eCoreFreq freqs ∈ freqs ∧ maxCoreFreq freqs ∈ freqs ∧
          (∀ f ∈ freqs, eCoreFreq freqs ≤ f ∧ f ≤ maxCoreFreq freqs) ∧
          (eCoreFreq freqs : ℚ) / (maxCoreFreq freqs : ℚ) < 85 / 100) ∧
      (power_info_supported freqs = true →
        e_cores_mask freqs ≠ 0 ∧ p_cores_mask freqs ≠ 0 ∧
          (∃ i, i < 64 ∧ freqs.getD i 0 = eCoreFreq freqs) ∧
          (∃ i, i < 64 ∧ freqs.getD i 0 ≠ eCoreFreq freqs)) := by
  constructor
  · intro hsome
    rw [detect_via_power_info] at hsome
    split_ifs at hsome with hcond
    · obtain ⟨hlen2, hratio⟩ := hcond
      have hperm : (sortedFreqs freqs).Perm freqs.dedup := List.mergeSort_perm _ _
      have hlen2' : 2 ≤ (sortedFreqs freqs).length := by
        rw [hperm.length_eq]; exact hlen2
      have hSFne : sortedFreqs freqs ≠ [] := by
        intro hnil
        rw [hnil] at hlen2'
        simp at hlen2'
      have hsorted : (sortedFreqs freqs).Pairwise (· ≤ ·) := by
        have h := @List.sorted_mergeSort ℕ (fun a b => decide (a ≤ b))
          (fun a b c h1 h2 => by
            simp only [decide_eq_true_eq] at h1 h2 ⊢
            omega)
          (fun a b => by rcases Nat.le_total a b with h | h <;> simp [h])
          freqs.dedup
        exact h.imp (fun hab => of_decide_eq_true hab)
      have hmemSF : ∀ x ∈ sortedFreqs freqs, x ∈ freqs := by
        intro x hx
        exact List.mem_dedup.mp (hperm.mem_iff.mp hx)
      have hhead : eCoreFreq freqs = (sortedFreqs freqs).head hSFne :=
        headD_eq_head _ 0 hSFne
      have hlast : maxCoreFreq freqs = (sortedFreqs freqs).getLast hSFne :=
        getLastD_eq_getLast _ 0 hSFne
      refine ⟨?_, ?_, ?_, ?_, hratio⟩
      · have hnd : (sortedFreqs freqs).Nodup :=
          hperm.nodup_iff.mpr (List.nodup_dedup _)
        have h0 : 0 < (sortedFreqs freqs).length := by omega
        have h1 : 1 < (sortedFreqs freqs).length := by omega
        refine ⟨(sortedFreqs freqs).get ⟨0, h0⟩, hmemSF _ (List.get_mem _ _ _),
          (sortedFreqs freqs).get ⟨1, h1⟩, hmemSF _ (List.get_mem _ _ _), ?_⟩
        intro heq
        have h2 := (hnd.get_inj_iff).mp heq
        simp at h2
      · rw [hhead]; exact hmemSF _ (List.head_mem hSFne)
      · rw [hlast]; exact hmemSF _ (List.getLast_mem hSFne)
      · intro f hf
        have hfSF : f ∈ sortedFreqs freqs :=
          hperm.mem_iff.mpr (List.mem_dedup.mpr hf)
        exact ⟨by rw [hhead]; exact head_le_of_sorted _ hSFne hsorted f hfSF,
          by rw [hlast]; exact le_getLast_of_sorted _ hSFne hsorted f hfSF⟩
    · simp at hsome
  · intro hsup
    rw [power_info_supported.eq_def] at hsup
    cases hdet : detect_via_power_info freqs with
    | none => rw [hdet] at hsup; simp at hsup
    | some pair =>
      obtain ⟨em, pm⟩ := pair
      rw [hdet] at hsup
      simp only [Bool.and_eq_true, decide_eq_true_eq] at hsup
      obtain ⟨he, hp⟩ := hsup
      rw [detect_via_power_info] at hdet
      split_ifs at hdet with hcond
      · have hpair := Option.some.inj hdet
        rw [Prod.ext_iff] at hpair
        obtain ⟨hem, hpm⟩ := hpair
        subst hem
        subst hpm
        obtain ⟨j, hj64, hjbit⟩ := exists_testBit_of_popCount64_pos _ he
        obtain ⟨k, hk64, hkbit⟩ := exists_testBit_of_popCount64_pos _ hp
        have hjmem := (testBit_maskOf _ j).mp hjbit
        have hkmem := (testBit_maskOf _ k).mp hkbit
        rw [List.mem_filter] at hjmem hkmem
        simp only [Bool.and_eq_true, decide_eq_true_eq] at hjmem hkmem
        refine ⟨?_, ?_, ⟨j, hjmem.2.2, hjmem.2.1⟩, ⟨k, hkmem.2.2, hkmem.2.1⟩⟩
        · intro h0
          rw [e_cores_mask] at hjbit
          rw [e_cores_mask] at h0
          rw [h0] at hjbit
          simp [Nat.zero_testBit] at hjbit
        · intro h0
          rw [p_cores_mask] at hkbit
          rw [p_cores_mask] at h0
          rw [h0] at hkbit
          simp [Nat.zero_testBit] at hkbit

/-- Witness for hybrid_detection_spec on a 2+2-core reading: two e-cores
at 1000 MHz and two p-cores at 3000 MHz are classified hybrid
(ratio 1/3 < 0.85) with both groups non-empty. -/
theorem hybrid_detection_spec_witness :
    (detect_via_power_info [1000, 1000, 3000, 3000]).isSome = true ∧
      power_info_supported [1000, 1000, 3000, 3000] = true ∧
      (∃ a ∈ ([1000, 1000, 3000, 3000] : List ℕ),
        ∃ b ∈ ([1000, 1000, 3000, 3000] : List ℕ), a ≠ b) ∧
      e_cores_mask [1000, 1000, 3000, 3000] ≠ 0 ∧
      p_cores_mask [1000, 1000, 3000, 3000] ≠ 0 := by
  have hd : ([1000, 1000, 3000, 3000] : List ℕ).dedup = [1000, 3000] := by decide
  have hsf : sortedFreqs [1000, 1000, 3000, 3000] = [1000, 3000] := by
    rw [sortedFreqs, hd]
    exact List.mergeSort_of_sorted (by decide)
  have heC : eCoreFreq [1000, 1000, 3000, 3000] = 1000 := by
    rw [eCoreFreq, hsf]
    rfl
  have hmC : maxCoreFreq [1000, 1000, 3000, 3000] = 3000 := by
    rw [maxCoreFreq, hsf]
    rfl
  have hcond : 2 ≤ ([1000, 1000, 3000, 3000] : List ℕ).dedup.length ∧
      (eCoreFreq [1000, 1000, 3000, 3000] : ℚ) /
        (maxCoreFreq [1000, 1000, 3000, 3000] : ℚ) < 85 / 100 := by
    constructor
    · rw [hd]
      decide
    · rw [heC, hmC]
      norm_num
  have hdet : detect_via_power_info [1000, 1000, 3000, 3000] =
      some (e_cores_mask [1000, 1000, 3000, 3000],
        p_cores_mask [1000, 1000, 3000, 3000]) := by
    rw [detect_via_power_info, if_pos hcond]
  have hsome : (detect_via_power_info [1000, 1000, 3000, 3000]).isSome = true := by
    rw [hdet]
    rfl
  have hem : e_cores_mask [1000, 1000, 3000, 3000] = 3 := by
    rw [e_cores_mask, heC]
    decide
  have hpm : p_cores_mask [1000, 1000, 3000, 3000] = 12 := by
    rw [p_cores_mask, heC]
    decide
  have hsup : power_info_supported [1000, 1000, 3000, 3000] = true := by
    rw [power_info_supported.eq_def, hdet, hem, hpm]
    decide
  exact ⟨hsome, hsup, ((hybrid_detection_spec [1000, 1000, 3000, 3000]).1 hsome).1,
    ((hybrid_detection_spec [1000, 1000, 3000, 3000]).2 hsup).1,
    ((hybrid_detection_spec [1000, 1000, 3000, 3000]).2 hsup).2.1⟩
